import Mathlib

set_option maxHeartbeats 1000000

/-!
Shallow embedding of the rendering layer of `pob-runtime-rs`
(src/graphics.rs and the string stripper in src/lua_host.rs).

Modelling conventions:
* `f32` fields are modelled over `ℚ` — none of the verified properties
  depends on floating-point rounding.
* `u32`/`u64` fields are modelled over `ℕ`; the byte-offset arithmetic in
  `Renderer::draw` stays far below `2^64`, so no wrap-around modelling is
  needed (the cursor is reset every frame and bounded by the buffer size).
* Rust strings are modelled as `List Char`; the byte-level scan of
  `parse_color_spans` coincides with the char-level scan on the ASCII
  markup it recognises.
* GPU objects (`wgpu::BindGroup`) are opaque handles, modelled by a type
  parameter `β`.
-/

namespace Pob

/-- An RGBA color, `[f32; 4]` in the source. -/
structure Color where
  r : ℚ
  g : ℚ
  b : ℚ
  a : ℚ
deriving DecidableEq

/-- `DrawCmd` from src/graphics.rs: an axis-aligned rectangle.
`uv = [tcLeft, tcTop, tcRight, tcBottom]` is split into four fields. -/
structure DrawCmd where
  x : ℚ
  y : ℚ
  w : ℚ
  h : ℚ
  color : Color
  texture_id : ℕ
  uv0 : ℚ
  uv1 : ℚ
  uv2 : ℚ
  uv3 : ℚ
  clip : Option (ℕ × ℕ × ℕ × ℕ)
deriving DecidableEq

/-- `DrawQuadCmd` from src/graphics.rs: an arbitrary quad with four
positions `p1..p4` and four uv coordinates `q1..q4`. -/
structure DrawQuadCmd where
  texture_id : ℕ
  color : Color
  clip : Option (ℕ × ℕ × ℕ × ℕ)
  p1 : ℚ × ℚ
  p2 : ℚ × ℚ
  p3 : ℚ × ℚ
  p4 : ℚ × ℚ
  q1 : ℚ × ℚ
  q2 : ℚ × ℚ
  q3 : ℚ × ℚ
  q4 : ℚ × ℚ
deriving DecidableEq

/-- `TextCmd` from src/graphics.rs. -/
structure TextCmd where
  x : ℚ
  y : ℚ
  size : ℚ
  text : String
  color : Color
  align : String
  font : String
  clip : Option (ℕ × ℕ × ℕ × ℕ)
deriving DecidableEq

/-- `DrawItem` from src/graphics.rs. -/
inductive DrawItem where
  | rect (cmd : DrawCmd)
  | quad (cmd : DrawQuadCmd)
  | text (cmd : TextCmd)
deriving DecidableEq

/-- The `tid_of` closure in `Renderer::draw`: texture id of an item,
with `Text` mapped to `0u32`. -/
def tid_of : DrawItem → ℕ
  | .rect c => c.texture_id
  | .quad c => c.texture_id
  | .text _ => 0

/-- The `clip_of` closure in `Renderer::draw`: clip of an item, with
`Text` mapped to `None`. -/
def clip_of : DrawItem → Option (ℕ × ℕ × ℕ × ℕ)
  | .rect c => c.clip
  | .quad c => c.clip
  | .text _ => none

/-- Is the item a `Text` item? -/
def isText : DrawItem → Bool
  | .text _ => true
  | _ => false

/-- A single GPU vertex (`Vertex` in the source). -/
structure Vertex where
  position : ℚ × ℚ
  uv : ℚ × ℚ
  color : Color
deriving DecidableEq

/-- The vertices `Renderer::draw` pushes for one item: 6 per `Rect`
(two triangles tl-tr-bl, tr-br-bl), 6 per `Quad` (p1-p2-p3, p1-p3-p4),
none for `Text` (the `continue` arm). -/
def verticesOfItem : DrawItem → List Vertex
  | .rect cmd =>
    let x2 := cmd.x + cmd.w
    let y2 := cmd.y + cmd.h
    let tl : Vertex := ⟨(cmd.x, cmd.y), (cmd.uv0, cmd.uv1), cmd.color⟩
    let tr : Vertex := ⟨(x2, cmd.y), (cmd.uv2, cmd.uv1), cmd.color⟩
    let bl : Vertex := ⟨(cmd.x, y2), (cmd.uv0, cmd.uv3), cmd.color⟩
    let br : Vertex := ⟨(x2, y2), (cmd.uv2, cmd.uv3), cmd.color⟩
    [tl, tr, bl, tr, br, bl]
  | .quad cmd =>
    let v := fun (p uv : ℚ × ℚ) => (⟨p, uv, cmd.color⟩ : Vertex)
    [v cmd.p1 cmd.q1, v cmd.p2 cmd.q2, v cmd.p3 cmd.q3,
     v cmd.p1 cmd.q1, v cmd.p3 cmd.q3, v cmd.p4 cmd.q4]
  | .text _ => []

/-- Vertices of one batch: concatenation over the run's items. -/
def verticesOfRun (run : List DrawItem) : List Vertex :=
  (run.map verticesOfItem).flatten

/-- The inner `while` of `Renderer::draw`: split off the longest prefix
whose items all have texture id `tid` and clip `clip`. -/
def takeRun (tid : ℕ) (clip : Option (ℕ × ℕ × ℕ × ℕ)) :
    List DrawItem → List DrawItem × List DrawItem
  | [] => ([], [])
  | c :: cs =>
    if tid_of c = tid ∧ clip_of c = clip then
      let p := takeRun tid clip cs
      (c :: p.1, p.2)
    else ([], c :: cs)

/-- The outer `while` of `Renderer::draw`: group the command list into
maximal runs sharing `(tid_of, clip_of)` of the run's first item.  The
first item always matches its own key, so each run starts with it. -/
def batches : List DrawItem → List (List DrawItem)
  | [] => []
  | c :: cs =>
    (c :: (takeRun (tid_of c) (clip_of c) cs).1) ::
      batches (takeRun (tid_of c) (clip_of c) cs).2
termination_by l => l.length
decreasing_by
  have H : ∀ ds : List DrawItem,
      (takeRun (tid_of c) (clip_of c) ds).2.length ≤ ds.length := by
    intro ds
    induction ds with
    | nil => simp [takeRun]
    | cons a as ih =>
      simp only [takeRun]
      split
      · exact le_trans ih (Nat.le_succ _)
      · simp
  have := H cs
  simp only [List.length_cons]
  omega

/-- `std::mem::size_of::<Vertex>()`: 8 `f32` fields of 4 bytes. -/
def vertex_size : ℕ := 32

/-- Size in bytes of the vertex buffer created in `Renderer::new`:
`size_of::<Vertex>() * 131072`. -/
def vertex_buffer_size : ℕ := vertex_size * 131072

/-- The texture table of the `Renderer`, a map from texture id to bind
group; bind groups are opaque handles of type `β`. -/
def Textures (β : Type) : Type := ℕ → Option β

/-- The table built in `Renderer::new`: only id `0` is mapped, to the
1x1 opaque-white fallback bind group. -/
def initTextures {β : Type} (white : β) : Textures β :=
  fun id => if id = 0 then some white else none

/-- `Renderer::load_texture`: `self.textures.insert(id, bind_group)`.
The map only ever gains or replaces entries; nothing is removed. -/
def load_texture {β : Type} (m : Textures β) (id : ℕ) (bg : β) : Textures β :=
  fun k => if k = id then some bg else m k

/-- A sequence of `load_texture` calls applied in order. -/
def applyLoads {β : Type} : List (ℕ × β) → Textures β → Textures β
  | [], m => m
  | (id, bg) :: rest, m => applyLoads rest (load_texture m id bg)

/-- The texture lookup in `Renderer::draw`:
`self.textures.get(&tid).unwrap_or_else(|| self.textures.get(&0).unwrap())`.
`none` models the panic that would occur were id 0 also missing. -/
def resolveTexture {β : Type} (m : Textures β) (tid : ℕ) : Option β :=
  match m tid with
  | some bg => some bg
  | none => m 0

/-- Observable render-pass effects issued by `Renderer::draw`:
`pass.set_scissor_rect`, `pass.set_bind_group(1, ..)` and `pass.draw`
(vertex range, in vertices). -/
inductive PassEvent (β : Type) where
  | setScissor (x y w h : ℕ)
  | setBindGroup (bg : Option β)
  | draw (vstart vend : ℕ)
deriving DecidableEq

/-- The scissor rect set for a batch, from the clip of the run's first
item: `Some([cx,cy,cw,ch])` gives `(cx, cy, max cw 1, max ch 1)`, `None`
gives the full screen. -/
def scissorEvent {β : Type} (clip : Option (ℕ × ℕ × ℕ × ℕ)) (screen : ℕ × ℕ) :
    PassEvent β :=
  match clip with
  | some (cx, cy, cw, ch) => .setScissor cx cy (max cw 1) (max ch 1)
  | none => .setScissor 0 0 screen.1 screen.2

/-- Result of running the submission loop of `Renderer::draw`: the pass
events in order, the runs for which a `pass.draw` was issued, and the
final byte cursor. -/
structure DrawOutcome (β : Type) where
  events : List (PassEvent β)
  drawn : List (List DrawItem)
  offset : ℕ
deriving DecidableEq

/-- The per-batch body of `Renderer::draw`, iterated over the runs.
For each run: resolve the bind group from the run's `tid`, set the
scissor rect from the first item's clip, set the bind group; if the
run's vertex list is empty, `continue`; if writing it would exceed
`cap` (`buffer_cap`), `break`; otherwise write the vertices at the byte
cursor, draw that vertex range, and advance the cursor. -/
def processRuns {β : Type} (textures : Textures β) (screen : ℕ × ℕ) (cap : ℕ) :
    List (List DrawItem) → ℕ → DrawOutcome β
  | [], off => ⟨[], [], off⟩
  | run :: rest, off =>
    match run with
    | [] => processRuns textures screen cap rest off
    | first :: _ =>
      let vs := verticesOfRun run
      let ev : List (PassEvent β) :=
        [scissorEvent (clip_of first) screen,
         .setBindGroup (resolveTexture textures (tid_of first))]
      if vs.isEmpty then
        let o := processRuns textures screen cap rest off
        ⟨ev ++ o.events, o.drawn, o.offset⟩
      else if cap < off + vs.length * vertex_size then
        ⟨ev, [], off⟩
      else
        let o := processRuns textures screen cap rest (off + vs.length * vertex_size)
        ⟨ev ++ [.draw (off / vertex_size) (off / vertex_size + vs.length)] ++ o.events,
         run :: o.drawn, o.offset⟩

/-- `Renderer::draw`: batch the commands into runs and submit them with
the byte cursor starting at the frame's current offset. -/
def rendererDraw {β : Type} (textures : Textures β) (screen : ℕ × ℕ) (cap : ℕ)
    (cmds : List DrawItem) (off : ℕ) : DrawOutcome β :=
  processRuns textures screen cap (batches cmds) off

/-- The mutable renderer state the modelled methods touch. -/
structure RendererState (β : Type) where
  textures : Textures β
  byte_offset : ℕ

/-- `Renderer::begin_frame`: `self.byte_offset = 0`. -/
def begin_frame {β : Type} (s : RendererState β) : RendererState β :=
  { s with byte_offset := 0 }

/-- Bytes a run occupies in the vertex buffer. -/
def runBytes (run : List DrawItem) : ℕ :=
  (verticesOfRun run).length * vertex_size

/-- Total bytes of a list of runs. -/
def sumBytes (runs : List (List DrawItem)) : ℕ :=
  (runs.map runBytes).sum

/-- Value of an ASCII hex digit; `is_ascii_hexdigit` accepts both cases. -/
def hexVal? (c : Char) : Option ℕ :=
  if '0' ≤ c ∧ c ≤ '9' then some (c.toNat - Char.toNat '0')
  else if 'a' ≤ c ∧ c ≤ 'f' then some (c.toNat - Char.toNat 'a' + 10)
  else if 'A' ≤ c ∧ c ≤ 'F' then some (c.toNat - Char.toNat 'A' + 10)
  else none

/-- `char::is_ascii_hexdigit`. -/
def isHexChar (c : Char) : Bool := (hexVal? c).isSome

/-- Accumulate hex digits left to right; `none` on any non-hex char. -/
def hexAccum? : List Char → ℕ → Option ℕ
  | [], acc => some acc
  | c :: rest, acc =>
    match hexVal? c with
    | some v => hexAccum? rest (acc * 16 + v)
    | none => none

/-- `u32::from_str_radix(s, 16)`: an optional sign (`+`, or `-` which
for an unsigned target succeeds only when the value is 0) followed by
at least one hex digit. -/
def from_str_radix16? : List Char → Option ℕ
  | [] => none
  | '+' :: rest => if rest.isEmpty then none else hexAccum? rest 0
  | '-' :: rest =>
    if rest.isEmpty then none
    else
      match hexAccum? rest 0 with
      | some 0 => some 0
      | _ => none
  | cs => hexAccum? cs 0

/-- `pob_digit_color` from src/graphics.rs: the fixed 10-entry palette;
alpha is always the caller-supplied base alpha. -/
def pob_digit_color (digit : ℕ) (alpha : ℚ) : Color :=
  match digit with
  | 0 => ⟨0, 0, 0, alpha⟩
  | 1 => ⟨1, 0, 0, alpha⟩
  | 2 => ⟨0, 1, 0, alpha⟩
  | 3 => ⟨0, 0, 1, alpha⟩
  | 4 => ⟨1, 1, 0, alpha⟩
  | 5 => ⟨1/2, 1/2, 1/2, alpha⟩
  | 6 => ⟨1/2, 1/2, 1/2, alpha⟩
  | 7 => ⟨1, 1, 1, alpha⟩
  | 8 => ⟨3/4, 3/4, 3/4, alpha⟩
  | 9 => ⟨3/10, 3/10, 3/10, alpha⟩
  | _ => ⟨1, 1, 1, alpha⟩

/-- The color built from a parsed `^xRRGGBB` value:
`((hex >> 16) & 0xFF) / 255.0` etc., alpha from the base alpha. -/
def rgbOfHex (hex : ℕ) (alpha : ℚ) : Color :=
  ⟨(((hex >>> 16) &&& 255 : ℕ) : ℚ) / 255,
   (((hex >>> 8) &&& 255 : ℕ) : ℚ) / 255,
   ((hex &&& 255 : ℕ) : ℚ) / 255, alpha⟩

/-- The scanning loop of `parse_color_spans`.  `cur` holds the chars of
the current span (reversed), standing for the `start..i` slice; `color`
is the active color.  On `^`: flush the pending span, then either
consume `x`/`X` plus 6 chars (recoloring only if they parse as hex),
consume a single decimal digit selecting a palette color, or — when the
follower is invalid or missing — drop the caret and rescan from the
follower. -/
def parseSpansGo (alpha : ℚ) :
    List Char → Color → List Char → List (List Char × Color)
  | [], color, cur => if cur.isEmpty then [] else [(cur.reverse, color)]
  | c :: rest, color, cur =>
    if c ≠ '^' then parseSpansGo alpha rest color (c :: cur)
    else
      let flushed := if cur.isEmpty then [] else [(cur.reverse, color)]
      match rest with
      | [] => flushed
      | d :: rest2 =>
        if (d = 'X' ∨ d = 'x') ∧ 6 ≤ rest2.length then
          let color2 :=
            match from_str_radix16? (rest2.take 6) with
            | some hex => rgbOfHex hex alpha
            | none => color
          flushed ++ parseSpansGo alpha (rest2.drop 6) color2 []
        else if d.isDigit then
          flushed ++
            parseSpansGo alpha rest2
              (pob_digit_color (d.toNat - Char.toNat '0') alpha) []
        else
          flushed ++ parseSpansGo alpha (d :: rest2) color []
termination_by cs _ _ => cs.length
decreasing_by
  all_goals simp_wf
  all_goals omega

/-- `parse_color_spans` from src/graphics.rs, over chars. -/
def parse_color_spans (text : List Char) (default_color : Color) :
    List (List Char × Color) :=
  parseSpansGo default_color.a text default_color []

/-- The text `parse_color_spans` keeps, span structure forgotten: same
consumption rules as `parseSpansGo`, collecting the kept chars. -/
def stripParse : List Char → List Char
  | [] => []
  | c :: rest =>
    if c ≠ '^' then c :: stripParse rest
    else
      match rest with
      | [] => []
      | d :: rest2 =>
        if (d = 'X' ∨ d = 'x') ∧ 6 ≤ rest2.length then stripParse (rest2.drop 6)
        else if d.isDigit then stripParse rest2
        else stripParse (d :: rest2)
termination_by cs => cs.length
decreasing_by
  all_goals simp_wf
  all_goals omega

/-- Drop up to `n` leading ASCII hex digits: the bounded `for` loop in
`strip_pob_escapes`, stopping early at the first non-hex char. -/
def dropHexUpTo : ℕ → List Char → List Char
  | 0, cs => cs
  | _ + 1, [] => []
  | n + 1, c :: rest => if isHexChar c then dropHexUpTo n rest else c :: rest

/-- `strip_pob_escapes` from src/lua_host.rs, over chars: `^` followed
by a decimal digit (the `'0'..='9'` pattern, i.e. `Char.isDigit`) drops
both; `^x` drops both plus up to 6 following hex digits; any other `^`
(including a trailing one) is pushed literally. -/
def strip_pob_escapes : List Char → List Char
  | [] => []
  | c :: rest =>
    if c ≠ '^' then c :: strip_pob_escapes rest
    else
      match rest with
      | [] => ['^']
      | d :: rest2 =>
        if d.isDigit then strip_pob_escapes rest2
        else if d = 'x' then strip_pob_escapes (dropHexUpTo 6 rest2)
        else '^' :: strip_pob_escapes (d :: rest2)
termination_by cs => cs.length
decreasing_by
  all_goals simp_wf
  all_goals first
  | omega
  | (have H : ∀ (n : ℕ) (ds : List Char), (dropHexUpTo n ds).length ≤ ds.length := by
       intro n
       induction n with
       | zero => intro ds; simp [dropHexUpTo]
       | succ n ih =>
         intro ds
         induction ds with
         | nil => simp [dropHexUpTo]
         | cons a as _iha =>
           simp only [dropHexUpTo]
           split
           · exact le_trans (ih as) (Nat.le_succ _)
           · simp
     have := H 6 rest2
     omega)

/-- Well-formed markup: every `^` is followed by a decimal digit or by
a lowercase `x` plus six hex digits.  On such inputs the two stripping
paths of the program agree. -/
def wellFormedMarkup : List Char → Bool
  | [] => true
  | c :: rest =>
    if c = '^' then
      match rest with
      | [] => false
      | d :: rest2 =>
        if d.isDigit then wellFormedMarkup rest2
        else if d = 'x' ∧ 6 ≤ rest2.length ∧ (rest2.take 6).all isHexChar then
          wellFormedMarkup (rest2.drop 6)
        else false
    else wellFormedMarkup rest
termination_by cs => cs.length
decreasing_by
  all_goals simp_wf
  all_goals omega

/-- Concatenation of the text slices of a span list. -/
def spanConcat (spans : List (List Char × Color)) : List Char :=
  (spans.map Prod.fst).flatten

/-- The horizontal anchor resolution in `TextRenderer::prepare`, as a
function of the alignment string, the anchor `x` and the measured line
width: `"RIGHT_X"` gives `x - line_w`, `"CENTER_X"` gives
`x - line_w / 2.0`, anything else gives `x`. -/
def resolve_left (align : String) (x line_w : ℚ) : ℚ :=
  if align = "RIGHT_X" then x - line_w
  else if align = "CENTER_X" then x - line_w / 2
  else x

/-- The opaque-white default color used in concrete test inputs. -/
def whiteColor : Color := ⟨1, 1, 1, 1⟩

/-- A sample rectangle command with texture id 0 and no clip. -/
def sampleRect0 : DrawCmd := ⟨0, 0, 1, 1, whiteColor, 0, 0, 0, 1, 1, none⟩

/-- A sample rectangle command with texture id 5 and no clip. -/
def sampleRect5 : DrawCmd := ⟨0, 0, 1, 1, whiteColor, 5, 0, 0, 1, 1, none⟩

/-- A sample text command. -/
def sampleText : TextCmd := ⟨0, 0, 12, "hi", whiteColor, "LEFT", "VAR", none⟩

theorem takeRun_snd_length (tid : ℕ) (clip : Option (ℕ × ℕ × ℕ × ℕ)) :
    ∀ cs : List DrawItem, (takeRun tid clip cs).2.length ≤ cs.length := by
  intro cs
  induction cs with
  | nil => simp [takeRun]
  | cons c cs ih =>
    simp only [takeRun]
    split
    · exact le_trans ih (Nat.le_succ _)
    · simp

theorem takeRun_append (tid : ℕ) (clip : Option (ℕ × ℕ × ℕ × ℕ)) :
    ∀ cs : List DrawItem, (takeRun tid clip cs).1 ++ (takeRun tid clip cs).2 = cs := by
  intro cs
  induction cs with
  | nil => simp [takeRun]
  | cons c cs ih =>
    simp only [takeRun]
    split
    · simpa using ih
    · simp

theorem batches_join_aux :
    ∀ (n : ℕ) (cmds : List DrawItem), cmds.length ≤ n → (batches cmds).flatten = cmds := by
  intro n
  induction n with
  | zero =>
    intro cmds h
    have : cmds = [] := List.eq_nil_of_length_eq_zero (Nat.le_zero.mp h)
    subst this
    simp [batches]
  | succ n ih =>
    intro cmds h
    match cmds with
    | [] => simp [batches]
    | c :: cs =>
      rw [batches]
      have h2 := takeRun_snd_length (tid_of c) (clip_of c) cs
      have h3 : (takeRun (tid_of c) (clip_of c) cs).2.length ≤ n := by
        simp only [List.length_cons] at h
        omega
      simp only [List.flatten]
      rw [ih _ h3]
      simp [takeRun_append]

/-- The batching loop partitions the input: concatenating all runs, in
order, gives back the command list. -/
theorem batches_join (cmds : List DrawItem) : (batches cmds).flatten = cmds :=
  batches_join_aux cmds.length cmds le_rfl

theorem verticesOfItem_length (it : DrawItem) :
    (verticesOfItem it).length = if isText it then 0 else 6 := by
  cases it <;> simp [verticesOfItem, isText]

theorem verticesOfRun_length (run : List DrawItem) :
    (verticesOfRun run).length = 6 * (run.filter (fun it => !isText it)).length := by
  induction run with
  | nil => simp [verticesOfRun]
  | cons it rest ih =>
    simp only [verticesOfRun, List.map_cons, List.flatten_cons, List.length_append,
      List.filter_cons] at *
    rw [verticesOfItem_length]
    cases h : isText it
    · simp [h, ih]
      omega
    · simp [h, ih]

theorem verticesOfRun_isEmpty_iff (run : List DrawItem) :
    (verticesOfRun run).isEmpty = true ↔ run.filter (fun it => !isText it) = [] := by
  rw [List.isEmpty_iff, ← List.length_eq_zero, ← List.length_eq_zero,
    verticesOfRun_length]
  omega

/-- When the whole frame fits in the buffer, every run with vertices is
drawn, in order, and the cursor advances by the total byte size. -/
theorem processRuns_fits {β : Type} (textures : Textures β) (screen : ℕ × ℕ)
    (cap : ℕ) :
    ∀ (runs : List (List DrawItem)) (off : ℕ), off + sumBytes runs ≤ cap →
      (processRuns textures screen cap runs off).drawn =
          runs.filter (fun r => !(verticesOfRun r).isEmpty) ∧
        (processRuns textures screen cap runs off).offset = off + sumBytes runs := by
  intro runs
  induction runs with
  | nil => intro off h; simp [processRuns, sumBytes]
  | cons run rest ih =>
    intro off h
    have hsum : sumBytes (run :: rest) = runBytes run + sumBytes rest := by
      simp [sumBytes]
    match run with
    | [] =>
      have hb : runBytes ([] : List DrawItem) = 0 := by
        simp [runBytes, verticesOfRun]
      have := ih off (by omega)
      simp only [processRuns]
      simpa [verticesOfRun, hsum, hb] using this
    | first :: tail =>
      simp only [processRuns]
      by_cases he : (verticesOfRun (first :: tail)).isEmpty
      · have hb : runBytes (first :: tail) = 0 := by
          simp only [runBytes]
          rw [List.isEmpty_iff] at he
          simp [he]
        have := ih off (by omega)
        simp [he, hsum, hb, this]
      · have hbytes : runBytes (first :: tail) =
            (verticesOfRun (first :: tail)).length * vertex_size := rfl
        have hfit : ¬ cap < off + (verticesOfRun (first :: tail)).length * vertex_size := by
          omega
        have := ih (off + (verticesOfRun (first :: tail)).length * vertex_size)
          (by omega)
        simp [he, hfit, hsum, hbytes, this]
        omega

/-- Dropping vertex-empty runs does not change the concatenation of the
non-text items. -/
theorem flatten_filter_nonempty (runs : List (List DrawItem)) :
    ((runs.filter (fun r => !(verticesOfRun r).isEmpty)).map
        (List.filter (fun it => !isText it))).flatten =
      (runs.map (List.filter (fun it => !isText it))).flatten := by
  induction runs with
  | nil => simp
  | cons run rest ih =>
    by_cases he : (verticesOfRun run).isEmpty
    · have hrun : run.filter (fun it => !isText it) = [] :=
        (verticesOfRun_isEmpty_iff run).mp he
      simp [List.filter_cons, he, hrun, ih]
    · simp [List.filter_cons, he, ih]

/-- Truncation: if every run in `pre` fits but appending `bad` would
overflow the buffer, the loop draws exactly the vertex-nonempty runs of
`pre`, leaves the cursor at the end of `pre`'s bytes, and never reaches
`bad` or anything after it. -/
theorem processRuns_overflow {β : Type} (textures : Textures β) (screen : ℕ × ℕ)
    (cap : ℕ) :
    ∀ (pre : List (List DrawItem)) (bad : List DrawItem)
      (post : List (List DrawItem)) (off : ℕ),
      off + sumBytes pre ≤ cap → cap < off + sumBytes pre + runBytes bad →
      (processRuns textures screen cap (pre ++ bad :: post) off).drawn =
          pre.filter (fun r => !(verticesOfRun r).isEmpty) ∧
        (processRuns textures screen cap (pre ++ bad :: post) off).offset =
          off + sumBytes pre := by
  intro pre
  induction pre with
  | nil =>
    intro bad post off h1 h2
    simp only [sumBytes, List.map_nil, List.sum_nil, Nat.add_zero] at h1 h2
    match bad with
    | [] => simp [runBytes, verticesOfRun] at h2; omega
    | first :: tail =>
      have hne : ¬ (verticesOfRun (first :: tail)).isEmpty = true := by
        intro hem
        rw [List.isEmpty_iff] at hem
        simp [runBytes, hem] at h2
        omega
      have hover : cap < off + (verticesOfRun (first :: tail)).length * vertex_size := by
        have : runBytes (first :: tail) =
          (verticesOfRun (first :: tail)).length * vertex_size := rfl
        omega
      simp [processRuns, hne, hover, sumBytes]
  | cons run rest ih =>
    intro bad post off h1 h2
    have hsum : sumBytes (run :: rest) = runBytes run + sumBytes rest := by
      simp [sumBytes]
    match run with
    | [] =>
      have hb : runBytes ([] : List DrawItem) = 0 := by
        simp [runBytes, verticesOfRun]
      have := ih bad post off (by omega) (by omega)
      simp only [List.cons_append, processRuns]
      simpa [verticesOfRun, hsum, hb] using this
    | first :: tail =>
      simp only [List.cons_append, processRuns]
      by_cases he : (verticesOfRun (first :: tail)).isEmpty
      · have hb : runBytes (first :: tail) = 0 := by
          simp only [runBytes]
          rw [List.isEmpty_iff] at he
          simp [he]
        have := ih bad post off (by omega) (by omega)
        simp [he, hsum, hb, this]
      · have hbytes : runBytes (first :: tail) =
            (verticesOfRun (first :: tail)).length * vertex_size := rfl
        have hfit : ¬ cap < off + (verticesOfRun (first :: tail)).length * vertex_size := by
          omega
        have := ih bad post (off + (verticesOfRun (first :: tail)).length * vertex_size)
          (by omega) (by omega)
        simp [he, hfit, hsum, hbytes, this]
        omega

theorem spanConcat_append (a b : List (List Char × Color)) :
    spanConcat (a ++ b) = spanConcat a ++ spanConcat b := by
  simp [spanConcat]

theorem spanConcat_flush (cur : List Char) (color : Color) :
    spanConcat (if cur.isEmpty then [] else [(cur.reverse, color)]) = cur.reverse := by
  by_cases h : cur.isEmpty
  · rw [List.isEmpty_iff] at h
    simp [h, spanConcat]
  · simp [h, spanConcat]

theorem go_nil (alpha : ℚ) (color : Color) (cur : List Char) :
    parseSpansGo alpha [] color cur =
      if cur.isEmpty then [] else [(cur.reverse, color)] := by
  rw [parseSpansGo.eq_def]

theorem go_cons_ne (alpha : ℚ) (c : Char) (rest : List Char) (color : Color)
    (cur : List Char) (h : c ≠ '^') :
    parseSpansGo alpha (c :: rest) color cur =
      parseSpansGo alpha rest color (c :: cur) := by
  rw [parseSpansGo.eq_def]
  simp [h]

theorem go_caret_nil (alpha : ℚ) (color : Color) (cur : List Char) :
    parseSpansGo alpha ['^'] color cur =
      if cur.isEmpty then [] else [(cur.reverse, color)] := by
  rw [parseSpansGo.eq_def]
  simp

theorem go_caret_hex (alpha : ℚ) (d : Char) (rest2 : List Char) (color : Color)
    (cur : List Char) (h2 : (d = 'X' ∨ d = 'x') ∧ 6 ≤ rest2.length) :
    parseSpansGo alpha ('^' :: d :: rest2) color cur =
      (if cur.isEmpty then [] else [(cur.reverse, color)]) ++
        parseSpansGo alpha (rest2.drop 6)
          (match from_str_radix16? (rest2.take 6) with
           | some hex => rgbOfHex hex alpha
           | none => color) [] := by
  rw [parseSpansGo.eq_def]
  simp [h2]

theorem go_caret_digit (alpha : ℚ) (d : Char) (rest2 : List Char) (color : Color)
    (cur : List Char) (h2 : ¬((d = 'X' ∨ d = 'x') ∧ 6 ≤ rest2.length))
    (h3 : d.isDigit = true) :
    parseSpansGo alpha ('^' :: d :: rest2) color cur =
      (if cur.isEmpty then [] else [(cur.reverse, color)]) ++
        parseSpansGo alpha rest2
          (pob_digit_color (d.toNat - Char.toNat '0') alpha) [] := by
  rw [parseSpansGo.eq_def]
  simp [h2, h3]

theorem go_caret_other (alpha : ℚ) (d : Char) (rest2 : List Char) (color : Color)
    (cur : List Char) (h2 : ¬((d = 'X' ∨ d = 'x') ∧ 6 ≤ rest2.length))
    (h3 : ¬d.isDigit = true) :
    parseSpansGo alpha ('^' :: d :: rest2) color cur =
      (if cur.isEmpty then [] else [(cur.reverse, color)]) ++
        parseSpansGo alpha (d :: rest2) color [] := by
  rw [parseSpansGo.eq_def]
  simp [h2, h3]

theorem stripParse_nil : stripParse [] = [] := by
  rw [stripParse.eq_def]

theorem stripParse_cons_ne (c : Char) (rest : List Char) (h : c ≠ '^') :
    stripParse (c :: rest) = c :: stripParse rest := by
  rw [stripParse.eq_def]
  simp [h]

theorem stripParse_caret_nil : stripParse ['^'] = [] := by
  rw [stripParse.eq_def]
  simp

theorem stripParse_caret_hex (d : Char) (rest2 : List Char)
    (h2 : (d = 'X' ∨ d = 'x') ∧ 6 ≤ rest2.length) :
    stripParse ('^' :: d :: rest2) = stripParse (rest2.drop 6) := by
  rw [stripParse.eq_def]
  simp [h2]

theorem stripParse_caret_digit (d : Char) (rest2 : List Char)
    (h2 : ¬((d = 'X' ∨ d = 'x') ∧ 6 ≤ rest2.length)) (h3 : d.isDigit = true) :
    stripParse ('^' :: d :: rest2) = stripParse rest2 := by
  rw [stripParse.eq_def]
  simp [h2, h3]

theorem stripParse_caret_other (d : Char) (rest2 : List Char)
    (h2 : ¬((d = 'X' ∨ d = 'x') ∧ 6 ≤ rest2.length)) (h3 : ¬d.isDigit = true) :
    stripParse ('^' :: d :: rest2) = stripParse (d :: rest2) := by
  rw [stripParse.eq_def]
  simp [h2, h3]

theorem strip_nil : strip_pob_escapes [] = [] := by
  rw [strip_pob_escapes.eq_def]

theorem strip_cons_ne (c : Char) (rest : List Char) (h : c ≠ '^') :
    strip_pob_escapes (c :: rest) = c :: strip_pob_escapes rest := by
  rw [strip_pob_escapes.eq_def]
  simp [h]

theorem strip_caret_nil : strip_pob_escapes ['^'] = ['^'] := by
  rw [strip_pob_escapes.eq_def]
  simp

theorem strip_caret_digit (d : Char) (rest2 : List Char) (h : d.isDigit = true) :
    strip_pob_escapes ('^' :: d :: rest2) = strip_pob_escapes rest2 := by
  rw [strip_pob_escapes.eq_def]
  simp [h]

theorem strip_caret_x (rest2 : List Char) :
    strip_pob_escapes ('^' :: 'x' :: rest2) =
      strip_pob_escapes (dropHexUpTo 6 rest2) := by
  rw [strip_pob_escapes.eq_def]
  simp +decide

theorem strip_caret_other (d : Char) (rest2 : List Char) (h1 : ¬d.isDigit = true)
    (h2 : d ≠ 'x') :
    strip_pob_escapes ('^' :: d :: rest2) =
      '^' :: strip_pob_escapes (d :: rest2) := by
  rw [strip_pob_escapes.eq_def]
  simp [h1, h2]

/-- The text slices of the spans emitted by the scanning loop
concatenate to the pending slice followed by the kept text of the rest
of the input. -/
theorem spanConcat_go (alpha : ℚ) (cs : List Char) (color : Color) (cur : List Char) :
    spanConcat (parseSpansGo alpha cs color cur) = cur.reverse ++ stripParse cs := by
  induction cs, color, cur using parseSpansGo.induct alpha with
  | case1 color cur h =>
    rw [go_nil, stripParse_nil, spanConcat_flush]
    simp
  | case2 color cur h =>
    rw [go_nil, stripParse_nil, spanConcat_flush]
    simp
  | case3 c rest color cur h ih =>
    rw [go_cons_ne alpha c rest color cur h, stripParse_cons_ne c rest h, ih]
    simp
  | case4 c color cur h =>
    simp only [ne_eq, not_not] at h
    subst h
    rw [go_caret_nil, stripParse_caret_nil, spanConcat_flush]
    simp
  | case5 c color cur h d rest2 h2 color2 ih =>
    simp only [ne_eq, not_not] at h
    subst h
    rw [go_caret_hex alpha d rest2 color cur h2, stripParse_caret_hex d rest2 h2,
      spanConcat_append, spanConcat_flush]
    unfold color2 at ih
    simp only [List.reverse_nil, List.nil_append] at ih
    rw [ih]
  | case6 c color cur h d rest2 h2 h3 ih =>
    simp only [ne_eq, not_not] at h
    subst h
    rw [go_caret_digit alpha d rest2 color cur h2 h3,
      stripParse_caret_digit d rest2 h2 h3, spanConcat_append, spanConcat_flush]
    simp only [List.reverse_nil, List.nil_append] at ih
    rw [ih]
  | case7 c color cur h d rest2 h2 h3 ih =>
    simp only [ne_eq, not_not] at h
    subst h
    rw [go_caret_other alpha d rest2 color cur h2 h3,
      stripParse_caret_other d rest2 h2 h3, spanConcat_append, spanConcat_flush]
    simp only [List.reverse_nil, List.nil_append] at ih
    rw [ih]

/-- Concatenating the text slices of `parse_color_spans` yields the
input with the markup it recognises removed. -/
theorem spanConcat_parse (text : List Char) (dc : Color) :
    spanConcat (parse_color_spans text dc) = stripParse text := by
  rw [parse_color_spans, spanConcat_go]
  simp

theorem mem_flush_ne_nil (p : List Char × Color) (cur : List Char) (color : Color)
    (hp : p ∈ (if cur.isEmpty then ([] : List (List Char × Color))
      else [(cur.reverse, color)])) : p.1 ≠ [] := by
  by_cases h : cur.isEmpty
  · simp [h] at hp
  · simp only [if_neg h, List.mem_singleton] at hp
    subst hp
    simp only [ne_eq, List.reverse_eq_nil_iff]
    rintro rfl
    simp at h

theorem mem_flush_color (p : List Char × Color) (cur : List Char) (color : Color)
    (hp : p ∈ (if cur.isEmpty then ([] : List (List Char × Color))
      else [(cur.reverse, color)])) : p.2 = color := by
  by_cases h : cur.isEmpty
  · simp [h] at hp
  · simp only [if_neg h, List.mem_singleton] at hp
    subst hp
    rfl

/-- Every span the scanning loop emits has a non-empty text slice
(spans are only pushed when `i > start`). -/
theorem go_spans_ne_nil (alpha : ℚ) (cs : List Char) (color : Color)
    (cur : List Char) : ∀ p ∈ parseSpansGo alpha cs color cur, p.1 ≠ [] := by
  induction cs, color, cur using parseSpansGo.induct alpha with
  | case1 color cur h =>
    intro p hp
    rw [go_nil] at hp
    exact mem_flush_ne_nil p cur color hp
  | case2 color cur h =>
    intro p hp
    rw [go_nil] at hp
    exact mem_flush_ne_nil p cur color hp
  | case3 c rest color cur h ih =>
    intro p hp
    rw [go_cons_ne alpha c rest color cur h] at hp
    exact ih p hp
  | case4 c color cur h =>
    simp only [ne_eq, not_not] at h
    subst h
    intro p hp
    rw [go_caret_nil] at hp
    exact mem_flush_ne_nil p cur color hp
  | case5 c color cur h d rest2 h2 color2 ih =>
    simp only [ne_eq, not_not] at h
    subst h
    intro p hp
    rw [go_caret_hex alpha d rest2 color cur h2] at hp
    rcases List.mem_append.mp hp with hp | hp
    · exact mem_flush_ne_nil p cur color hp
    · exact ih p hp
  | case6 c color cur h d rest2 h2 h3 ih =>
    simp only [ne_eq, not_not] at h
    subst h
    intro p hp
    rw [go_caret_digit alpha d rest2 color cur h2 h3] at hp
    rcases List.mem_append.mp hp with hp | hp
    · exact mem_flush_ne_nil p cur color hp
    · exact ih p hp
  | case7 c color cur h d rest2 h2 h3 ih =>
    simp only [ne_eq, not_not] at h
    subst h
    intro p hp
    rw [go_caret_other alpha d rest2 color cur h2 h3] at hp
    rcases List.mem_append.mp hp with hp | hp
    · exact mem_flush_ne_nil p cur color hp
    · exact ih p hp

theorem pob_digit_color_a (n : ℕ) (alpha : ℚ) :
    (pob_digit_color n alpha).a = alpha := by
  unfold pob_digit_color
  split <;> rfl

theorem rgbOfHex_a (hex : ℕ) (alpha : ℚ) : (rgbOfHex hex alpha).a = alpha := rfl

/-- Every span color the scanning loop emits keeps the base alpha,
provided the active color does. -/
theorem go_alpha (alpha : ℚ) (cs : List Char) (color : Color) (cur : List Char) :
    color.a = alpha → ∀ p ∈ parseSpansGo alpha cs color cur, p.2.a = alpha := by
  induction cs, color, cur using parseSpansGo.induct alpha with
  | case1 color cur h =>
    intro hc p hp
    rw [go_nil] at hp
    rw [mem_flush_color p cur color hp]
    exact hc
  | case2 color cur h =>
    intro hc p hp
    rw [go_nil] at hp
    rw [mem_flush_color p cur color hp]
    exact hc
  | case3 c rest color cur h ih =>
    intro hc p hp
    rw [go_cons_ne alpha c rest color cur h] at hp
    exact ih hc p hp
  | case4 c color cur h =>
    simp only [ne_eq, not_not] at h
    subst h
    intro hc p hp
    rw [go_caret_nil] at hp
    rw [mem_flush_color p cur color hp]
    exact hc
  | case5 c color cur h d rest2 h2 color2 ih =>
    simp only [ne_eq, not_not] at h
    subst h
    intro hc p hp
    rw [go_caret_hex alpha d rest2 color cur h2] at hp
    rcases List.mem_append.mp hp with hp | hp
    · rw [mem_flush_color p cur color hp]
      exact hc
    · refine ih ?_ p hp
      unfold color2
      cases hx : from_str_radix16? (rest2.take 6) with
      | none =>
        simp only [hx]
        exact hc
      | some hex =>
        simp only [hx]
        exact rgbOfHex_a hex alpha
  | case6 c color cur h d rest2 h2 h3 ih =>
    simp only [ne_eq, not_not] at h
    subst h
    intro hc p hp
    rw [go_caret_digit alpha d rest2 color cur h2 h3] at hp
    rcases List.mem_append.mp hp with hp | hp
    · rw [mem_flush_color p cur color hp]
      exact hc
    · exact ih (pob_digit_color_a _ alpha) p hp
  | case7 c color cur h d rest2 h2 h3 ih =>
    simp only [ne_eq, not_not] at h
    subst h
    intro hc p hp
    rw [go_caret_other alpha d rest2 color cur h2 h3] at hp
    rcases List.mem_append.mp hp with hp | hp
    · rw [mem_flush_color p cur color hp]
      exact hc
    · exact ih hc p hp

theorem dropHexUpTo_eq_drop :
    ∀ (n : ℕ) (cs : List Char), n ≤ cs.length →
      (cs.take n).all isHexChar = true → dropHexUpTo n cs = cs.drop n := by
  intro n
  induction n with
  | zero => intro cs _ _; simp [dropHexUpTo]
  | succ n ih =>
    intro cs hlen hall
    match cs with
    | [] => simp at hlen
    | c :: rest =>
      simp only [List.take_succ_cons, List.all_cons, Bool.and_eq_true] at hall
      simp only [dropHexUpTo, hall.1, if_true]
      rw [ih rest (by simpa using hlen) hall.2]
      simp

/-- On well-formed markup the strip function derived from
`parse_color_spans` agrees with `strip_pob_escapes`. -/
theorem stripParse_eq_strip (cs : List Char) :
    wellFormedMarkup cs = true → stripParse cs = strip_pob_escapes cs := by
  induction cs using wellFormedMarkup.induct with
  | case1 =>
    intro _
    rw [stripParse_nil, strip_nil]
  | case2 =>
    intro h
    rw [wellFormedMarkup.eq_def] at h
    simp at h
  | case3 d rest2 hd ih =>
    intro h
    rw [wellFormedMarkup.eq_def] at h
    simp only [hd, if_true, reduceCtorEq, reduceIte] at h
    have hno : ¬((d = 'X' ∨ d = 'x') ∧ 6 ≤ rest2.length) := by
      rintro ⟨rfl | rfl, -⟩
      · exact absurd hd (by decide)
      · exact absurd hd (by decide)
    rw [stripParse_caret_digit d rest2 hno hd, strip_caret_digit d rest2 hd,
      ih (by simpa using h)]
  | case4 d rest2 hd hx ih =>
    obtain ⟨rfl, hlen, hhex⟩ := hx
    intro h
    rw [wellFormedMarkup.eq_def] at h
    simp only [hd, hlen, hhex, if_true, if_false, and_true, reduceCtorEq,
      reduceIte] at h
    rw [stripParse_caret_hex 'x' rest2 ⟨Or.inr rfl, hlen⟩, strip_caret_x rest2,
      dropHexUpTo_eq_drop 6 rest2 hlen hhex]
    exact ih (by simpa using h)
  | case5 d rest2 hd hx =>
    intro h
    rw [wellFormedMarkup.eq_def] at h
    simp only [List.all_eq_true] at hx
    simp [hd, hx] at h
  | case6 c rest hc ih =>
    intro h
    rw [wellFormedMarkup.eq_def] at h
    simp only [hc, if_false, reduceIte] at h
    rw [stripParse_cons_ne c rest hc, strip_cons_ne c rest hc, ih (by simpa using h)]

theorem applyLoads_zero_isSome {β : Type} :
    ∀ (loads : List (ℕ × β)) (m : Textures β), (m 0).isSome = true →
      (applyLoads loads m 0).isSome = true := by
  intro loads
  induction loads with
  | nil => intro m h; exact h
  | cons p rest ih =>
    intro m h
    obtain ⟨id, bg⟩ := p
    simp only [applyLoads]
    apply ih
    unfold load_texture
    by_cases h0 : (0 : ℕ) = id <;> simp [h0, h]

/-- C9: In `TextRenderer::prepare` the horizontal anchor is resolved
against the measured total line width: any alignment other than
`"RIGHT_X"`/`"CENTER_X"` (i.e. Left) places the left edge at `x`,
`"RIGHT_X"` at `x - width`, `"CENTER_X"` at `x - width / 2`; in
particular measured width 40, Center alignment and anchor `x = 100`
give left edge 80. -/
theorem claim_C9 (a : String) (x w : ℚ) (h1 : a ≠ "RIGHT_X")
    (h2 : a ≠ "CENTER_X") :
    resolve_left a x w = x ∧
      resolve_left "RIGHT_X" x w = x - w ∧
      resolve_left "CENTER_X" x w = x - w / 2 ∧
      resolve_left "CENTER_X" 100 40 = 80 := by
  refine ⟨?_, ?_, ?_, ?_⟩
  · simp [resolve_left, h1, h2]
  · simp [resolve_left]
  · simp +decide [resolve_left]
  · have hx : ("CENTER_X" : String) ≠ "RIGHT_X" := by decide
    simp only [resolve_left, hx, if_false, reduceIte]
    norm_num

theorem claim_C9_witness :
    resolve_left "LEFT" 100 40 = 100 ∧
      resolve_left "RIGHT_X" 100 40 = 100 - 40 ∧
      resolve_left "CENTER_X" 100 40 = 100 - 40 / 2 ∧
      resolve_left "CENTER_X" 100 40 = 80 :=
  claim_C9 "LEFT" 100 40 (by decide) (by decide)

/-- C7: texture lookup returns the registered bind group when present
and otherwise the id-0 fallback, which exists after construction and is
never removed by any sequence of `load_texture` calls; resolving an
unregistered id yields the same bind group as resolving id 0, with no
error. -/
theorem claim_C7 {β : Type} (white : β) (loads : List (ℕ × β)) (id : ℕ)
    (h : applyLoads loads (initTextures white) id = none) :
    resolveTexture (applyLoads loads (initTextures white)) id =
        resolveTexture (applyLoads loads (initTextures white)) 0 ∧
      (resolveTexture (applyLoads loads (initTextures white)) 0).isSome = true := by
  have h0 : ((applyLoads loads (initTextures white)) 0).isSome = true :=
    applyLoads_zero_isSome loads (initTextures white) (by simp [initTextures])
  obtain ⟨bg, hbg⟩ := Option.isSome_iff_exists.mp h0
  constructor
  · simp only [resolveTexture, h, hbg]
  · simp only [resolveTexture, hbg, Option.isSome_some]

theorem claim_C7_witness :
    resolveTexture (applyLoads [] (initTextures (37 : ℕ))) 999 =
        resolveTexture (applyLoads [] (initTextures (37 : ℕ))) 0 ∧
      (resolveTexture (applyLoads [] (initTextures (37 : ℕ))) 0).isSome = true :=
  claim_C7 37 [] 999 (by decide)

/-- C10: every span emitted by `parse_color_spans` has a non-empty text
slice. -/
theorem claim_C10 (text : List Char) (dc : Color) (p : List Char × Color)
    (hp : p ∈ parse_color_spans text dc) : p.1 ≠ [] :=
  go_spans_ne_nil dc.a text dc [] p hp

theorem claim_C10_witness :
    ((("Hello").toList, (⟨1, 0, 0, 1⟩ : Color)).1 : List Char) ≠ [] :=
  claim_C10 (("^1Hello").toList) ⟨1, 1, 1, 1⟩ ((("Hello").toList), ⟨1, 0, 0, 1⟩)
    (by simp +decide [parse_color_spans, parseSpansGo, pob_digit_color])

/-- C1 counterexample: a `Text` item between two `Rect` items that share
the key `(texture id 5, no clip)` terminates the run — the batcher
produces three runs, not one, because the text item's key is `(0, None)`
and does not match `(5, None)`. -/
theorem claim_C1_counterexample :
    batches [.rect sampleRect5, .text sampleText, .rect sampleRect5] =
        [[.rect sampleRect5], [.text sampleText], [.rect sampleRect5]] ∧
      batches [.rect sampleRect5, .text sampleText, .rect sampleRect5] ≠
        [[.rect sampleRect5, .text sampleText, .rect sampleRect5]] := by
  have e1 : takeRun (tid_of (.rect sampleRect5)) (clip_of (.rect sampleRect5))
      [.text sampleText, .rect sampleRect5] = ([], [.text sampleText, .rect sampleRect5]) := by
    simp [takeRun, tid_of, clip_of, sampleRect5]
  have e2 : takeRun (tid_of (.text sampleText)) (clip_of (.text sampleText))
      [.rect sampleRect5] = ([], [.rect sampleRect5]) := by
    simp [takeRun, tid_of, clip_of, sampleRect5]
  have e3 : takeRun (tid_of (.rect sampleRect5)) (clip_of (.rect sampleRect5))
      ([] : List DrawItem) = ([], []) := by
    simp [takeRun]
  have hb : batches [.rect sampleRect5, .text sampleText, .rect sampleRect5] =
      [[.rect sampleRect5], [.text sampleText], [.rect sampleRect5]] := by
    rw [batches, e1]
    rw [batches, e2]
    rw [batches, e3]
    rw [batches]
  refine ⟨hb, ?_⟩
  rw [hb]
  simp

/-- C1 (amended): a `Text` item contributes the key `(0, None)` to the
run-length scan, so it extends a run rather than terminating it exactly
when the surrounding geometry's shared key is `(0, None)`; in that case
the three items form one batch and the text item contributes no
vertices.  (With any other shared key, the text item terminates the
run, as the counterexample shows.) -/
theorem claim_C1 (a b t : DrawItem) (ht : isText t = true)
    (hka : tid_of a = 0) (hca : clip_of a = none)
    (hkb : tid_of b = 0) (hcb : clip_of b = none) :
    tid_of t = 0 ∧ clip_of t = none ∧
      batches [a, t, b] = [[a, t, b]] ∧
      verticesOfRun [a, t, b] = verticesOfItem a ++ verticesOfItem b := by
  cases t with
  | rect tc => simp [isText] at ht
  | quad tc => simp [isText] at ht
  | text tc =>
    refine ⟨rfl, rfl, ?_, ?_⟩
    · have eb : takeRun 0 none [b] = ([b], []) := by
        rw [takeRun, if_pos ⟨hkb, hcb⟩, takeRun]
      have e1 : takeRun 0 none [DrawItem.text tc, b] =
          ([DrawItem.text tc, b], []) := by
        rw [takeRun, if_pos ⟨rfl, rfl⟩, eb]
      rw [batches, hka, hca, e1, batches]
    · simp [verticesOfRun, verticesOfItem]

theorem claim_C1_witness :
    tid_of (.text sampleText) = 0 ∧ clip_of (.text sampleText) = none ∧
      batches [.rect sampleRect0, .text sampleText, .rect sampleRect0] =
        [[.rect sampleRect0, .text sampleText, .rect sampleRect0]] ∧
      verticesOfRun [.rect sampleRect0, .text sampleText, .rect sampleRect0] =
        verticesOfItem (.rect sampleRect0) ++ verticesOfItem (.rect sampleRect0) :=
  claim_C1 (.rect sampleRect0) (.rect sampleRect0) (.text sampleText)
    rfl rfl rfl rfl rfl

/-- C4 counterexample: the claim asserts that `parse_color_spans` also
preserves a bare trailing caret, but stripping `"100%^"` through the
span parser yields `"100%"`, not `"100%^"`. -/
theorem claim_C4_counterexample :
    spanConcat (parse_color_spans (("100%^").toList) whiteColor) =
        ("100%").toList ∧
      ("100%").toList ≠ ("100%^").toList := by
  constructor
  · simp +decide [parse_color_spans, parseSpansGo, spanConcat]
  · decide

/-- C4 (amended): `strip_pob_escapes` treats a `^` not followed by a
decimal digit or lowercase `x` as a literal caret and preserves it —
also a trailing one, so `"100%^"` strips to `"100%^"`.
`parse_color_spans`, by contrast, never preserves a caret: when the
follower is neither a decimal digit nor `x`/`X` with at least 6
remaining characters it drops the caret and resumes the scan at the
following character (its span texts for `"100%^"` concatenate to
`"100%"`), and when the follower is `x` or `X` with 6 remaining
characters it consumes the caret plus seven characters whether or not
they parse as hex (`"^X123456"` yields spans concatenating to `""`). -/
theorem claim_C4 (d : Char) (rest : List Char) (dc : Color)
    (h1 : d.isDigit = false) :
    (d ≠ 'x' →
      strip_pob_escapes ('^' :: d :: rest) = '^' :: strip_pob_escapes (d :: rest)) ∧
      strip_pob_escapes ['^'] = ['^'] ∧
      (¬((d = 'X' ∨ d = 'x') ∧ 6 ≤ rest.length) →
        parse_color_spans ('^' :: d :: rest) dc = parse_color_spans (d :: rest) dc) ∧
      ((d = 'X' ∨ d = 'x') → 6 ≤ rest.length →
        spanConcat (parse_color_spans ('^' :: d :: rest) dc) =
          stripParse (rest.drop 6)) ∧
      strip_pob_escapes (("100%^").toList) = ("100%^").toList ∧
      spanConcat (parse_color_spans (("100%^").toList) whiteColor) =
        ("100%").toList ∧
      spanConcat (parse_color_spans (("^X123456").toList) whiteColor) = [] := by
  refine ⟨?_, strip_caret_nil, ?_, ?_, ?_, ?_, ?_⟩
  · intro h2
    exact strip_caret_other d rest (by simp [h1]) h2
  · intro hno
    rw [parse_color_spans, parse_color_spans,
      go_caret_other dc.a d rest dc [] hno (by simp [h1])]
    simp
  · intro hxX hlen
    rw [parse_color_spans, go_caret_hex dc.a d rest dc [] ⟨hxX, hlen⟩]
    simp only [List.isEmpty_nil, if_true, List.nil_append]
    rw [spanConcat_go]
    simp
  · simp +decide [strip_pob_escapes, dropHexUpTo]
  · simp +decide [parse_color_spans, parseSpansGo, spanConcat]
  · simp +decide [parse_color_spans, parseSpansGo, spanConcat, from_str_radix16?,
      hexAccum?, hexVal?]

theorem claim_C4_witness :
    strip_pob_escapes ('^' :: 'X' :: ("12345").toList) =
        '^' :: strip_pob_escapes ('X' :: ("12345").toList) ∧
      strip_pob_escapes ['^'] = ['^'] ∧
      parse_color_spans ('^' :: 'X' :: ("12345").toList) whiteColor =
        parse_color_spans ('X' :: ("12345").toList) whiteColor ∧
      strip_pob_escapes (("100%^").toList) = ("100%^").toList ∧
      spanConcat (parse_color_spans (("100%^").toList) whiteColor) =
        ("100%").toList ∧
      spanConcat (parse_color_spans (("^X123456").toList) whiteColor) = [] := by
  have h := claim_C4 'X' (("12345").toList) whiteColor (by decide)
  exact ⟨h.1 (by decide), h.2.1, h.2.2.1 (by decide), h.2.2.2.2.1,
    h.2.2.2.2.2.1, h.2.2.2.2.2.2⟩

/-- C5 counterexample: on the input `"^"` the span texts of
`parse_color_spans` concatenate to `""` while `strip_pob_escapes`
returns `"^"`, so the two stripping paths do not agree on every
input. -/
theorem claim_C5_counterexample :
    spanConcat (parse_color_spans (("^").toList) whiteColor) ≠
      strip_pob_escapes (("^").toList) := by
  have h1 : spanConcat (parse_color_spans (("^").toList) whiteColor) = [] := by
    simp +decide [parse_color_spans, parseSpansGo, spanConcat]
  have h2 : strip_pob_escapes (("^").toList) = ['^'] := by
    simp +decide [strip_pob_escapes]
  rw [h1, h2]
  simp

/-- C5 (amended): for every default color, the concatenation of the
text slices returned by `parse_color_spans` equals the output of
`strip_pob_escapes` on every input whose markup is well formed (each
`^` is followed by a decimal digit or by a lowercase `x` plus six hex
digits); on other inputs the two paths may differ, as the
counterexample `"^"` shows. -/
theorem claim_C5 (text : List Char) (dc : Color)
    (h : wellFormedMarkup text = true) :
    spanConcat (parse_color_spans text dc) = strip_pob_escapes text := by
  rw [spanConcat_parse, stripParse_eq_strip text h]

theorem claim_C5_witness :
    spanConcat (parse_color_spans (("^1Hello^x00FF00World").toList) whiteColor) =
      strip_pob_escapes (("^1Hello^x00FF00World").toList) :=
  claim_C5 (("^1Hello^x00FF00World").toList) whiteColor
    (by simp +decide [wellFormedMarkup, isHexChar, hexVal?])

/-- C6: every span emitted by `parse_color_spans` carries the command's
base alpha (never the markup's); and parsing
`"^1Hello^x00FF00World"` with base alpha 1 yields exactly
`[("Hello", red), ("World", green)]`, where red is palette entry 1 and
green is the `^x00FF00` triplet. -/
theorem claim_C6 (text : List Char) (dc : Color) (p : List Char × Color)
    (hp : p ∈ parse_color_spans text dc) :
    p.2.a = dc.a ∧
      parse_color_spans (("^1Hello^x00FF00World").toList) ⟨1, 1, 1, 1⟩ =
        [((("Hello").toList), ⟨1, 0, 0, 1⟩), ((("World").toList), ⟨0, 1, 0, 1⟩)] := by
  constructor
  · exact go_alpha dc.a text dc [] rfl p hp
  · simp +decide [parse_color_spans, parseSpansGo, pob_digit_color, rgbOfHex,
      from_str_radix16?, hexAccum?, hexVal?]

theorem claim_C6_witness :
    ((("Hello").toList, (⟨1, 0, 0, 1⟩ : Color)) : List Char × Color).2.a =
        (⟨1, 1, 1, 1⟩ : Color).a ∧
      parse_color_spans (("^1Hello^x00FF00World").toList) ⟨1, 1, 1, 1⟩ =
        [((("Hello").toList), ⟨1, 0, 0, 1⟩), ((("World").toList), ⟨0, 1, 0, 1⟩)] :=
  claim_C6 (("^1Hello").toList) ⟨1, 1, 1, 1⟩ ((("Hello").toList), ⟨1, 0, 0, 1⟩)
    (by simp +decide [parse_color_spans, parseSpansGo, pob_digit_color])

/-- C2: when the whole frame fits in the vertex buffer, concatenating
the non-text items of the batches drawn by `Renderer::draw`, in batch
order, reconstructs exactly the original subsequence of non-text items:
nothing is dropped, duplicated or reordered. -/
theorem claim_C2 {β : Type} (textures : Textures β) (screen : ℕ × ℕ) (cap : ℕ)
    (cmds : List DrawItem) (h : sumBytes (batches cmds) ≤ cap) :
    ((rendererDraw textures screen cap cmds 0).drawn.map
        (List.filter (fun it => !isText it))).flatten =
      cmds.filter (fun it => !isText it) := by
  have hfits := processRuns_fits textures screen cap (batches cmds) 0 (by omega)
  rw [rendererDraw, hfits.1, flatten_filter_nonempty, ← List.filter_flatten,
    batches_join]

theorem claim_C2_witness :
    ((rendererDraw (initTextures (37 : ℕ)) (800, 600) vertex_buffer_size
        [DrawItem.rect sampleRect0, DrawItem.text sampleText] 0).drawn.map
        (List.filter (fun it => !isText it))).flatten =
      [DrawItem.rect sampleRect0, DrawItem.text sampleText].filter
        (fun it => !isText it) :=
  claim_C2 (initTextures (37 : ℕ)) (800, 600) vertex_buffer_size
    [DrawItem.rect sampleRect0, DrawItem.text sampleText]
    (by
      have e1 : takeRun (tid_of (DrawItem.rect sampleRect0))
          (clip_of (DrawItem.rect sampleRect0)) [DrawItem.text sampleText] =
          ([DrawItem.text sampleText], []) := by
        rw [takeRun, if_pos ⟨rfl, rfl⟩, takeRun]
      have hb : batches [DrawItem.rect sampleRect0, DrawItem.text sampleText] =
          [[DrawItem.rect sampleRect0, DrawItem.text sampleText]] := by
        rw [batches, e1, batches]
      rw [hb]
      decide)

/-- C3: when a batch's vertices would push the byte cursor past the
buffer capacity, submission stops for the frame: the batches before the
overflowing one are all drawn (the vertex-empty ones having nothing to
draw), the overflowing batch and everything after it are dropped, the
cursor stays at the end of the drawn bytes (the model is a total
function — no error, no panic), and `begin_frame` resets the cursor to
0 so the next frame starts fresh. -/
theorem claim_C3 {β : Type} (textures : Textures β) (screen : ℕ × ℕ) (cap : ℕ)
    (cmds : List DrawItem) (pre : List (List DrawItem)) (bad : List DrawItem)
    (post : List (List DrawItem)) (s : RendererState β)
    (hsplit : batches cmds = pre ++ bad :: post)
    (h1 : sumBytes pre ≤ cap) (h2 : cap < sumBytes pre + runBytes bad) :
    (rendererDraw textures screen cap cmds 0).drawn =
        pre.filter (fun r => !(verticesOfRun r).isEmpty) ∧
      (rendererDraw textures screen cap cmds 0).offset = sumBytes pre ∧
      (begin_frame s).byte_offset = 0 := by
  have hover := processRuns_overflow textures screen cap pre bad post 0
    (by omega) (by omega)
  rw [rendererDraw, hsplit]
  refine ⟨hover.1, ?_, rfl⟩
  rw [hover.2]
  omega

theorem claim_C3_witness :
    (rendererDraw (initTextures (37 : ℕ)) (800, 600) 192
        [DrawItem.rect sampleRect0, DrawItem.rect sampleRect5] 0).drawn =
        [[DrawItem.rect sampleRect0]].filter
          (fun r => !(verticesOfRun r).isEmpty) ∧
      (rendererDraw (initTextures (37 : ℕ)) (800, 600) 192
        [DrawItem.rect sampleRect0, DrawItem.rect sampleRect5] 0).offset =
        sumBytes [[DrawItem.rect sampleRect0]] ∧
      (begin_frame (⟨initTextures (37 : ℕ), 55⟩ : RendererState ℕ)).byte_offset = 0 :=
  claim_C3 (initTextures (37 : ℕ)) (800, 600) 192
    [DrawItem.rect sampleRect0, DrawItem.rect sampleRect5]
    [[DrawItem.rect sampleRect0]] [DrawItem.rect sampleRect5] []
    ⟨initTextures (37 : ℕ), 55⟩
    (by
      have e1 : takeRun (tid_of (DrawItem.rect sampleRect0))
          (clip_of (DrawItem.rect sampleRect0)) [DrawItem.rect sampleRect5] =
          ([], [DrawItem.rect sampleRect5]) := by
        rw [takeRun]
        rw [if_neg]
        intro hcon
        exact absurd hcon.1 (by decide)
      have e2 : takeRun (tid_of (DrawItem.rect sampleRect5))
          (clip_of (DrawItem.rect sampleRect5)) ([] : List DrawItem) =
          ([], []) := by
        rw [takeRun]
      rw [batches, e1, batches, e2, batches]
      rfl)
    (by decide) (by decide)

/-- C8 counterexample: the claim asserts a zero-vertex group is skipped
without issuing any scissor or bind-group change, but drawing a single
`Text` item (a zero-vertex batch) issues both a `set_scissor_rect` and
a `set_bind_group` before the empty-vertex `continue`. -/
theorem claim_C8_counterexample :
    (rendererDraw (initTextures (37 : ℕ)) (800, 600) vertex_buffer_size
        [DrawItem.text sampleText] 0).events =
        [PassEvent.setScissor 0 0 800 600, PassEvent.setBindGroup (some 37)] ∧
      (rendererDraw (initTextures (37 : ℕ)) (800, 600) vertex_buffer_size
        [DrawItem.text sampleText] 0).events ≠ [] := by
  have hb : batches [DrawItem.text sampleText] = [[DrawItem.text sampleText]] := by
    rw [batches, takeRun, batches]
  constructor
  · rw [rendererDraw, hb]
    simp [processRuns, verticesOfRun, verticesOfItem, scissorEvent, clip_of,
      tid_of, resolveTexture, initTextures]
  · rw [rendererDraw, hb]
    simp [processRuns, verticesOfRun, verticesOfItem, scissorEvent, clip_of,
      tid_of]

/-- C8 (amended): a zero-vertex group (all items in the run are `Text`)
is skipped without a `pass.draw`, without advancing the byte cursor and
without reserving any buffer space, but the scissor rect and the
texture bind group are still set for it before the skip. -/
theorem claim_C8 {β : Type} (textures : Textures β) (screen : ℕ × ℕ) (cap : ℕ)
    (first : DrawItem) (tail : List DrawItem) (rest : List (List DrawItem))
    (off : ℕ) (htext : ∀ it ∈ first :: tail, isText it = true) :
    processRuns textures screen cap ((first :: tail) :: rest) off =
      ⟨scissorEvent (clip_of first) screen ::
          PassEvent.setBindGroup (resolveTexture textures (tid_of first)) ::
          (processRuns textures screen cap rest off).events,
        (processRuns textures screen cap rest off).drawn,
        (processRuns textures screen cap rest off).offset⟩ := by
  have hv : (verticesOfRun (first :: tail)).isEmpty = true := by
    rw [verticesOfRun_isEmpty_iff, List.filter_eq_nil_iff]
    intro a ha
    simp [htext a ha]
  simp [processRuns, hv]

theorem claim_C8_witness :
    processRuns (initTextures (37 : ℕ)) (800, 600) 12345
        [[DrawItem.text sampleText]] 7 =
      ⟨[scissorEvent (clip_of (DrawItem.text sampleText)) (800, 600),
        PassEvent.setBindGroup (resolveTexture (initTextures (37 : ℕ))
          (tid_of (DrawItem.text sampleText)))], [], 7⟩ := by
  have happ := claim_C8 (initTextures (37 : ℕ)) (800, 600) 12345
    (DrawItem.text sampleText) [] [] 7
    (by
      intro it hit
      simp only [List.mem_singleton] at hit
      subst hit
      rfl)
  rw [happ]
  simp [processRuns]

end Pob
